import Mathlib

/-!
Shallow embedding of the receipt-amount extraction heuristic of
`src/app.py` (`extract_amount_from_image`, lines 246-342).

The Python function first performs an OCR call; everything the claims are
about happens after `full_text` has been obtained.  The embedding therefore
starts from `full_text : Option (List Char)` (a `None` models both an OCR
error and an absent annotation; Python's `if not full_text` also treats the
empty string as absent).

Strings are modelled as `List Char`.  Python's `int(...)` call in Strategy 1
can raise `ValueError` (when the regex group consists only of commas), so the
whole extractor is embedded in `Except Unit`, with `.error ()` modelling a
raised exception.
-/

deriving instance DecidableEq for Except

namespace ChurchBudget

/-- `\d` or `,` — the character class of `won_pattern` / `won_with_suffix`
(`[\d,]`); the OCR text in this domain contains only ASCII digits. -/
def isDigitOrComma (c : Char) : Bool := c.isDigit || c == ','

/-- Characters removed by Python's default `str.strip()` (ASCII whitespace). -/
def isStripChar (c : Char) : Bool :=
  c == ' ' || c == '\t' || c == '\n' || c == '\r' || c == '\x0b' || c == '\x0c'

/-- Python `line.strip()`. -/
def pyStrip (l : List Char) : List Char :=
  ((l.dropWhile isStripChar).reverse.dropWhile isStripChar).reverse

/-- Python `s.replace(" ", "")`. -/
def removeSpaces (l : List Char) : List Char := l.filter (fun c => c ≠ ' ')

/-- Python `line.strip().replace(" ", "")` — the `stripped` variable. -/
def strippedRS (l : List Char) : List Char := removeSpaces (pyStrip l)

/-- Python `s.replace(",", "")`. -/
def removeCommas (l : List Char) : List Char := l.filter (fun c => c ≠ ',')

/-- `needle` is a prefix of `hay`. -/
def hasPre : List Char → List Char → Bool
  | [], _ => true
  | _ :: _, [] => false
  | a :: as, b :: bs => a == b && hasPre as bs

/-- Python's substring test `needle in hay` (contiguous occurrence). -/
def hasSub (hay needle : List Char) : Bool :=
  hasPre needle hay ||
    (match hay with
     | [] => false
     | _ :: t => hasSub t needle)

/-- Python `full_text.split("\n")`. -/
def splitOnNewline : List Char → List (List Char)
  | [] => [[]]
  | c :: rest =>
    if c = '\n' then [] :: splitOnNewline rest
    else
      match splitOnNewline rest with
      | [] => [[c]]
      | l :: ls => (c :: l) :: ls

/-- Python `int(digits)` for an all-digit string (most significant first). -/
def natDigits (l : List Char) : Nat :=
  l.foldl (fun a c => 10 * a + (c.toNat - 48)) 0

/-- The range check `100 <= val <= 99_999_999`. -/
def inRange (v : Nat) : Bool := decide (100 ≤ v) && decide (v ≤ 99999999)

/-- `[\d,]{1,n}` greedily taken from the front of `s`: the pair of the
matched token (maximal run of digit/comma characters, capped at `n`) and the
remaining characters. -/
def takeRun : Nat → List Char → List Char × List Char
  | 0, s => ([], s)
  | _ + 1, [] => ([], [])
  | n + 1, c :: s =>
    if isDigitOrComma c then
      let p := takeRun n s
      (c :: p.1, p.2)
    else ([], c :: s)

/-- One step of `won_pattern.finditer`: fuelled scan of the text.  At each
digit/comma character the greedy match `([\d,]{1,12})(?:원)?` is taken
(non-overlapping, resuming after the match); the group with commas removed is
kept when it `isdigit()`s and its value is in range.  This is
`extract_won_amount` of src/app.py lines 274-283. -/
def extractWonGo : Nat → List Char → List Nat
  | 0, _ => []
  | _ + 1, [] => []
  | f + 1, c :: s =>
    if isDigitOrComma c then
      let p := takeRun 12 (c :: s)
      let r2 := match p.2 with
                | '원' :: r3 => r3
                | r => r
      let d := removeCommas p.1
      (if !d.isEmpty && d.all Char.isDigit && inRange (natDigits d)
       then [natDigits d] else []) ++ extractWonGo f r2
    else extractWonGo f s

/-- `extract_won_amount` (src/app.py lines 274-283). -/
def extractWon (s : List Char) : List Nat := extractWonGo s.length s

/-- `exclude_keywords` (src/app.py line 272). -/
def excludeKeywords : List (List Char) :=
  ["번호".data, "일시".data, "종류".data, "개월".data, "상호".data,
   "주소".data, "등록".data, "상점".data, "정보".data]

/-- `line_has_exclude` (src/app.py lines 285-289). -/
def lineHasExclude (text : List Char) : Bool :=
  excludeKeywords.any (fun ex => hasSub text ex)

/-- `total_keywords` (src/app.py lines 262-270), in declaration order
(priority = position). -/
def totalKeywords : List (List Char) :=
  ["합계금액".data, "합계 금액".data, "총합계".data, "총 합계".data,
   "결제금액".data, "결제 금액".data, "승인금액".data, "승인 금액".data,
   "합계".data, "합 계".data,
   "총액".data, "총 액".data, "합산".data,
   "받을금액".data, "받을 금액".data, "청구금액".data, "청구 금액".data,
   "total".data, "amount".data]

/-- The leftmost match of `won_with_suffix = ([\d,]{1,12})원` in `s`
(its captured group), i.e. Python `won_with_suffix.search(s)`.  A match at a
position requires the maximal digit/comma run from there to have length at
most 12 and to be immediately followed by `원`; otherwise the search advances
one character. -/
def wonSuffixGroup : List Char → Option (List Char)
  | [] => none
  | c :: s =>
    if isDigitOrComma c then
      let run := (c :: s).takeWhile isDigitOrComma
      let rest := (c :: s).dropWhile isDigitOrComma
      if run.length ≤ 12 && rest.head? == some '원' then some run
      else wonSuffixGroup s
    else wonSuffixGroup s

/-- Strategy 1's inline parse `int(m.group(1).replace(",", ""))`: raises
(`.error`) when the group contains no digits (Python `int("")`). -/
def parseGroup (g : List Char) : Except Unit Nat :=
  let d := removeCommas g
  if d.isEmpty then .error () else .ok (natDigits d)

/-- The leftmost won-suffixed token of a line, parsed as Strategy 1 parses
it (`none` = no regex match, `.error` = `ValueError` from `int`). -/
def lineWonEval (l : List Char) : Option (Except Unit Nat) :=
  (wonSuffixGroup l).map parseGroup

/-- The Strategy 1 line test (src/app.py line 297):
`"합계금액" in stripped or "합계 금액" in stripped.replace(" ", "")`. -/
def s1kwTest (l : List Char) : Bool :=
  hasSub (strippedRS l) "합계금액".data ||
    hasSub (removeSpaces (strippedRS l)) "합계 금액".data

/-- Strategy 1's inner loop (src/app.py lines 304-309): scan the following
lines for the first line whose leftmost won-suffixed token is in range; a
line whose leftmost token parses out of range is passed over entirely. -/
def scanFollowing : List (List Char) → Except Unit (Option Nat)
  | [] => .ok none
  | l :: ls =>
    match lineWonEval l with
    | none => scanFollowing ls
    | some (.error _) => .error ()
    | some (.ok v) => if inRange v then .ok (some v) else scanFollowing ls

/-- Strategy 1 (src/app.py lines 291-309): on each `합계금액` line, try the
same line's leftmost won-suffixed token, then all following lines; the outer
loop continues with later lines when nothing resolves. -/
def strategy1 : List (List Char) → Except Unit (Option Nat)
  | [] => .ok none
  | l :: ls =>
    if s1kwTest l then
      match lineWonEval l with
      | some (.error _) => .error ()
      | some (.ok v) =>
        if inRange v then .ok (some v)
        else
          match scanFollowing ls with
          | .ok none => strategy1 ls
          | r => r
      | none =>
        match scanFollowing ls with
        | .ok none => strategy1 ls
        | r => r
    else strategy1 ls

/-- The candidates a single keyword hit contributes (src/app.py lines
319-329): same-line amounts first; otherwise the next line's amounts,
provided the RAW next line has no exclusion keyword. -/
def candsForHit (p : Nat) (l : List Char) (next : Option (List Char)) :
    List (Nat × Nat) :=
  match extractWon l with
  | v :: vs => (v :: vs).map (fun x => (p, x))
  | [] =>
    match next with
    | some nl =>
      if lineHasExclude nl then []
      else (extractWon nl).map (fun x => (p, x))
    | none => []

/-- The keyword loop `for priority, kw in enumerate(total_keywords)`
(src/app.py lines 317-329), with `p` the priority of the first keyword of
`kws`. -/
def kwCandsFrom (p : Nat) (kws : List (List Char)) (st l : List Char)
    (next : Option (List Char)) : List (Nat × Nat) :=
  match kws with
  | [] => []
  | kw :: rest =>
    (if hasSub st (removeSpaces kw) then candsForHit p l next else []) ++
      kwCandsFrom (p + 1) rest st l next

/-- Strategy 2's treatment of one line (src/app.py lines 313-329): skip the
whole line when its stripped form has an exclusion keyword, else run the
keyword loop. -/
def lineCands (l : List Char) (next : Option (List Char)) : List (Nat × Nat) :=
  let st := strippedRS l
  if lineHasExclude st then [] else kwCandsFrom 0 totalKeywords st l next

/-- Strategy 2's line loop (src/app.py lines 312-329), collecting
`keyword_candidates`. -/
def collectCandidates : List (List Char) → List (Nat × Nat)
  | [] => []
  | l :: ls => lineCands l ls.head? ++ collectCandidates ls

/-- The sort key comparison of
`keyword_candidates.sort(key=lambda x: (x[0], -x[1]))`:
ascending priority, descending value within a priority. -/
def leKey (a b : Nat × Nat) : Bool :=
  decide (a.1 < b.1) || (a.1 == b.1 && decide (b.2 ≤ a.2))

/-- Insert into a `leKey`-sorted list. -/
def insSorted (x : Nat × Nat) : List (Nat × Nat) → List (Nat × Nat)
  | [] => [x]
  | y :: ys => if leKey x y then x :: y :: ys else y :: insSorted x ys

/-- `keyword_candidates.sort(key=lambda x: (x[0], -x[1]))` (src/app.py line
332), modelled as an insertion sort by the same key. -/
def sortPairs : List (Nat × Nat) → List (Nat × Nat)
  | [] => []
  | x :: xs => insSorted x (sortPairs xs)

/-- Python `max` of a list of naturals (list nonempty at every use site). -/
def listMax : List Nat → Nat
  | [] => 0
  | v :: vs => vs.foldl Nat.max v

/-- Decimal digits of `n`, least significant first, with fuel (total:
the fuel `n + 1` always suffices). -/
def natDigitsRevGo : Nat → Nat → List Char
  | 0, _ => []
  | f + 1, n =>
    if n < 10 then [Nat.digitChar n]
    else Nat.digitChar (n % 10) :: natDigitsRevGo f (n / 10)

/-- Insert `','` after every three characters of a least-significant-first
digit list. -/
def group3 : List Char → List Char
  | a :: b :: c :: d :: rest => a :: b :: c :: ',' :: group3 (d :: rest)
  | l => l

/-- Python `f"{val:,.0f}"` for a natural number: the thousands-grouped
decimal rendering (digits and commas only, no currency symbol, no decimal
point). -/
def fmtComma (v : Nat) : List Char :=
  (group3 (natDigitsRevGo (v + 1) v)).reverse

/-- The text-processing core of `extract_amount_from_image`
(src/app.py lines 246-342), from the OCR text onward.  `.error ()` models a
raised `ValueError`. -/
def extract_amount_from_image (fullText : Option (List Char)) :
    Except Unit (Option (List Char) × Option (List Char)) :=
  match fullText with
  | none => .ok (none, none)
  | some t =>
    if t.isEmpty then .ok (none, none)
    else
      let lines := splitOnNewline t
      match strategy1 lines with
      | .error _ => .error ()
      | .ok (some v) => .ok (some (fmtComma v), some t)
      | .ok none =>
        match collectCandidates lines with
        | [] =>
          match extractWon t with
          | [] => .ok (none, some t)
          | v :: vs => .ok (some (fmtComma (listMax (v :: vs))), some t)
        | c :: cs =>
          let sorted := sortPairs (c :: cs)
          let bp := (sorted.headD (0, 0)).1
          let grp := (sorted.filter (fun x => x.1 == bp)).map (fun x => x.2)
          .ok (some (fmtComma (listMax grp)), some t)

/-- A line that Strategy 1's won-suffix probe passes over without returning
and without raising: either no `([\d,]{1,12})원` match at all, or a leftmost
match whose value is out of range. -/
def s1LineMiss (l : List Char) : Bool :=
  match lineWonEval l with
  | none => true
  | some (.ok w) => !inRange w
  | some (.error _) => false

/-- The first character of `post` (if any) is not a digit/comma — i.e.
`post` cannot extend a numeric token to its left. -/
def headNotDC (post : List Char) : Bool :=
  match post with
  | [] => true
  | c :: _ => !isDigitOrComma c

/-! ### General lemmas about the embedded definitions -/

theorem inRange_iff {v : Nat} : inRange v = true ↔ 100 ≤ v ∧ v ≤ 99999999 := by
  simp [inRange]

theorem foldlMax_init_le (l : List Nat) (a : Nat) : a ≤ l.foldl Nat.max a := by
  induction l generalizing a with
  | nil => exact Nat.le_refl a
  | cons x xs ih =>
    exact Nat.le_trans (Nat.le_max_left a x) (ih (Nat.max a x))

theorem foldlMax_le_of_mem {v : Nat} {l : List Nat} (a : Nat) (h : v ∈ l) :
    v ≤ l.foldl Nat.max a := by
  induction l generalizing a with
  | nil => cases h
  | cons x xs ih =>
    rcases List.mem_cons.mp h with rfl | hx
    · exact Nat.le_trans (Nat.le_max_right a v) (foldlMax_init_le xs _)
    · exact ih _ hx

theorem foldlMax_mem (l : List Nat) (a : Nat) :
    l.foldl Nat.max a = a ∨ l.foldl Nat.max a ∈ l := by
  induction l generalizing a with
  | nil => exact Or.inl rfl
  | cons x xs ih =>
    rcases ih (Nat.max a x) with h | h
    · rcases Nat.le_total a x with hax | hxa
      · have hm : Nat.max a x = x :=
          Nat.le_antisymm (Nat.max_le.mpr ⟨hax, Nat.le_refl x⟩) (Nat.le_max_right a x)
        refine Or.inr ?_
        rw [List.foldl_cons, h, hm]
        exact List.mem_cons_self x xs
      · have hm : Nat.max a x = a :=
          Nat.le_antisymm (Nat.max_le.mpr ⟨Nat.le_refl a, hxa⟩) (Nat.le_max_left a x)
        exact Or.inl (by rw [List.foldl_cons, h, hm])
    · exact Or.inr (List.mem_cons_of_mem x h)

theorem listMax_mem : ∀ (l : List Nat), l ≠ [] → listMax l ∈ l
  | [], h => absurd rfl h
  | v :: vs, _ => by
    simp only [listMax]
    rcases foldlMax_mem vs v with h | h
    · rw [h]; exact List.mem_cons_self v vs
    · exact List.mem_cons_of_mem v h

theorem le_listMax {v : Nat} : ∀ {l : List Nat}, v ∈ l → v ≤ listMax l := by
  intro l h
  match l with
  | [] => cases h
  | x :: xs =>
    simp only [listMax]
    rcases List.mem_cons.mp h with rfl | hx
    · exact foldlMax_init_le xs v
    · exact foldlMax_le_of_mem x hx

theorem listMax_eq {V : Nat} {l : List Nat} (h1 : V ∈ l)
    (h2 : ∀ y ∈ l, y ≤ V) : listMax l = V := by
  have hne : l ≠ [] := by intro e; rw [e] at h1; cases h1
  exact Nat.le_antisymm (h2 _ (listMax_mem l hne)) (le_listMax h1)

theorem extractWonGo_inRange :
    ∀ (f : Nat) (s : List Char) {v : Nat}, v ∈ extractWonGo f s → inRange v = true := by
  intro f
  induction f with
  | zero => intro s v h; simp [extractWonGo] at h
  | succ f ih =>
    intro s v h
    match s with
    | [] => simp [extractWonGo] at h
    | c :: s2 =>
      simp only [extractWonGo] at h
      by_cases hc : isDigitOrComma c = true
      · rw [if_pos hc] at h
        rcases List.mem_append.mp h with h1 | h2
        · by_cases hg : (!(removeCommas (takeRun 12 (c :: s2)).1).isEmpty &&
              (removeCommas (takeRun 12 (c :: s2)).1).all Char.isDigit &&
              inRange (natDigits (removeCommas (takeRun 12 (c :: s2)).1))) = true
          · rw [if_pos hg] at h1
            rcases List.mem_singleton.mp h1 with rfl
            exact (Bool.and_eq_true _ _ |>.mp hg).2
          · rw [if_neg hg] at h1; cases h1
        · exact ih _ h2
      · rw [if_neg hc] at h
        exact ih _ h

theorem extractWon_inRange {s : List Char} {v : Nat} (h : v ∈ extractWon s) :
    inRange v = true :=
  extractWonGo_inRange s.length s h

theorem scanFollowing_inRange :
    ∀ (ls : List (List Char)) {v : Nat},
      scanFollowing ls = .ok (some v) → inRange v = true := by
  intro ls
  induction ls with
  | nil => intro v h; simp [scanFollowing] at h
  | cons l ls ih =>
    intro v h
    simp only [scanFollowing] at h
    match hev : lineWonEval l with
    | none => rw [hev] at h; exact ih h
    | some (.error e) => rw [hev] at h; dsimp only at h; cases h
    | some (.ok w) =>
      rw [hev] at h
      dsimp only at h
      by_cases hr : inRange w = true
      · rw [if_pos hr] at h
        cases h
        exact hr
      · rw [if_neg hr] at h
        exact ih h

theorem strategy1_inRange :
    ∀ (ls : List (List Char)) {v : Nat},
      strategy1 ls = .ok (some v) → inRange v = true := by
  intro ls
  induction ls with
  | nil => intro v h; simp [strategy1] at h
  | cons l ls ih =>
    intro v h
    simp only [strategy1] at h
    by_cases hkw : s1kwTest l = true
    · rw [if_pos hkw] at h
      match hev : lineWonEval l with
      | some (.error e) => rw [hev] at h; dsimp only at h; cases h
      | some (.ok w) =>
        rw [hev] at h
        dsimp only at h
        by_cases hr : inRange w = true
        · rw [if_pos hr] at h
          cases h
          exact hr
        · rw [if_neg hr] at h
          match hsf : scanFollowing ls with
          | .ok none => rw [hsf] at h; exact ih h
          | .ok (some u) => rw [hsf] at h; cases h; exact scanFollowing_inRange ls hsf
          | .error e => rw [hsf] at h; cases h
      | none =>
        rw [hev] at h
        dsimp only at h
        match hsf : scanFollowing ls with
        | .ok none => rw [hsf] at h; exact ih h
        | .ok (some u) => rw [hsf] at h; cases h; exact scanFollowing_inRange ls hsf
        | .error e => rw [hsf] at h; cases h
    · rw [if_neg hkw] at h
      exact ih h

theorem candsForHit_inRange {p : Nat} {l : List Char} {next : Option (List Char)}
    {q v : Nat} (h : (q, v) ∈ candsForHit p l next) : inRange v = true := by
  simp only [candsForHit] at h
  match hw : extractWon l with
  | w :: ws =>
    rw [hw] at h
    dsimp only at h
    rcases List.mem_map.mp h with ⟨x, hx, hxe⟩
    cases hxe
    exact extractWon_inRange (hw ▸ hx)
  | [] =>
    rw [hw] at h
    dsimp only at h
    match next with
    | none => cases h
    | some nl =>
      dsimp only at h
      by_cases hex : lineHasExclude nl = true
      · rw [if_pos hex] at h; cases h
      · rw [if_neg hex] at h
        rcases List.mem_map.mp h with ⟨x, hx, hxe⟩
        cases hxe
        exact extractWon_inRange hx

theorem kwCandsFrom_inRange :
    ∀ (kws : List (List Char)) (p : Nat) (st l : List Char)
      (next : Option (List Char)) {q v : Nat},
      (q, v) ∈ kwCandsFrom p kws st l next → inRange v = true := by
  intro kws
  induction kws with
  | nil => intro p st l next q v h; simp [kwCandsFrom] at h
  | cons kw rest ih =>
    intro p st l next q v h
    simp only [kwCandsFrom] at h
    rcases List.mem_append.mp h with h1 | h2
    · by_cases hh : hasSub st (removeSpaces kw) = true
      · rw [if_pos hh] at h1
        exact candsForHit_inRange h1
      · rw [if_neg hh] at h1; cases h1
    · exact ih _ _ _ _ h2

theorem lineCands_inRange {l : List Char} {next : Option (List Char)}
    {q v : Nat} (h : (q, v) ∈ lineCands l next) : inRange v = true := by
  simp only [lineCands] at h
  by_cases hex : lineHasExclude (strippedRS l) = true
  · rw [if_pos hex] at h; cases h
  · rw [if_neg hex] at h
    exact kwCandsFrom_inRange _ _ _ _ _ h

theorem collectCandidates_inRange :
    ∀ (lines : List (List Char)) {q v : Nat},
      (q, v) ∈ collectCandidates lines → inRange v = true := by
  intro lines
  induction lines with
  | nil => intro q v h; cases h
  | cons l ls ih =>
    intro q v h
    rcases List.mem_append.mp h with h1 | h2
    · exact lineCands_inRange h1
    · exact ih h2

theorem leKey_iff {a b : Nat × Nat} :
    leKey a b = true ↔ a.1 < b.1 ∨ (a.1 = b.1 ∧ b.2 ≤ a.2) := by
  simp [leKey]

theorem leKey_total (a b : Nat × Nat) : leKey a b = true ∨ leKey b a = true := by
  rw [leKey_iff, leKey_iff]
  omega

theorem leKey_trans {a b c : Nat × Nat} (h1 : leKey a b = true)
    (h2 : leKey b c = true) : leKey a c = true := by
  rw [leKey_iff] at h1 h2 ⊢
  omega

theorem mem_insSorted {z x : Nat × Nat} :
    ∀ (l : List (Nat × Nat)), (z ∈ insSorted x l ↔ z = x ∨ z ∈ l) := by
  intro l
  induction l with
  | nil => simp [insSorted]
  | cons y ys ih =>
    simp only [insSorted]
    by_cases h : leKey x y = true
    · rw [if_pos h]
      simp [List.mem_cons]
    · rw [if_neg h]
      simp only [List.mem_cons, ih]
      tauto

theorem mem_sortPairs {z : Nat × Nat} :
    ∀ (l : List (Nat × Nat)), (z ∈ sortPairs l ↔ z ∈ l) := by
  intro l
  induction l with
  | nil => simp [sortPairs]
  | cons x xs ih =>
    simp only [sortPairs, mem_insSorted, List.mem_cons, ih]

theorem pairwise_insSorted (x : Nat × Nat) :
    ∀ (l : List (Nat × Nat)),
      List.Pairwise (fun a b => leKey a b = true) l →
      List.Pairwise (fun a b => leKey a b = true) (insSorted x l) := by
  intro l
  induction l with
  | nil => intro _; simp [insSorted]
  | cons y ys ih =>
    intro hp
    rcases List.pairwise_cons.mp hp with ⟨hy, hys⟩
    simp only [insSorted]
    by_cases h : leKey x y = true
    · rw [if_pos h]
      refine List.pairwise_cons.mpr ⟨?_, hp⟩
      intro z hz
      rcases List.mem_cons.mp hz with rfl | hz2
      · exact h
      · exact leKey_trans h (hy z hz2)
    · rw [if_neg h]
      refine List.pairwise_cons.mpr ⟨?_, ih hys⟩
      intro z hz
      rcases (mem_insSorted ys).mp hz with rfl | hz2
      · rcases leKey_total z y with ht | ht
        · exact absurd ht h
        · exact ht
      · exact hy z hz2

theorem pairwise_sortPairs :
    ∀ (l : List (Nat × Nat)),
      List.Pairwise (fun a b => leKey a b = true) (sortPairs l) := by
  intro l
  induction l with
  | nil => simp [sortPairs]
  | cons x xs ih => exact pairwise_insSorted x _ ih

theorem splitOnNewline_no_newline :
    ∀ (l : List Char), '\n' ∉ l → splitOnNewline l = [l] := by
  intro l
  induction l with
  | nil => intro _; rfl
  | cons c rest ih =>
    intro h
    have hc : ¬(c = '\n') := fun e => h (e ▸ List.mem_cons_self c rest)
    simp only [splitOnNewline]
    rw [if_neg hc, ih (fun hm => h (List.mem_cons_of_mem c hm))]

theorem digitChar_isDigit {n : Nat} (h : n < 10) : (Nat.digitChar n).isDigit = true := by
  interval_cases n <;> decide

theorem natDigitsRevGo_digits :
    ∀ (f n : Nat) {c : Char}, c ∈ natDigitsRevGo f n → c.isDigit = true := by
  intro f
  induction f with
  | zero => intro n c h; cases h
  | succ f ih =>
    intro n c h
    simp only [natDigitsRevGo] at h
    by_cases hn : n < 10
    · rw [if_pos hn] at h
      rcases List.mem_singleton.mp h with rfl
      exact digitChar_isDigit hn
    · rw [if_neg hn] at h
      rcases List.mem_cons.mp h with rfl | hm
      · exact digitChar_isDigit (Nat.mod_lt n (by decide))
      · exact ih _ hm

theorem group3_chars :
    ∀ (l : List Char) {c : Char}, c ∈ group3 l → c ∈ l ∨ c = ','
  | [], c, h => Or.inl h
  | [a], c, h => Or.inl h
  | [a, b], c, h => Or.inl h
  | [a, b, d], c, h => Or.inl h
  | a :: b :: d :: e :: rest, c, h => by
    simp only [group3] at h
    rcases List.mem_cons.mp h with rfl | h
    · exact Or.inl (List.mem_cons_self _ _)
    rcases List.mem_cons.mp h with rfl | h
    · exact Or.inl (List.mem_cons_of_mem _ (List.mem_cons_self _ _))
    rcases List.mem_cons.mp h with rfl | h
    · exact Or.inl (List.mem_cons_of_mem _ (List.mem_cons_of_mem _ (List.mem_cons_self _ _)))
    rcases List.mem_cons.mp h with rfl | h
    · exact Or.inr rfl
    · rcases group3_chars (e :: rest) h with hm | hm
      · exact Or.inl (List.mem_cons_of_mem _ (List.mem_cons_of_mem _ (List.mem_cons_of_mem _ hm)))
      · exact Or.inr hm

theorem fmtComma_chars {v : Nat} {c : Char} (h : c ∈ fmtComma v) :
    c.isDigit = true ∨ c = ',' := by
  simp only [fmtComma, List.mem_reverse] at h
  rcases group3_chars _ h with hm | hm
  · exact Or.inl (natDigitsRevGo_digits _ _ hm)
  · exact Or.inr hm

theorem takeRun_all :
    ∀ (s : List Char) (n : Nat) (post : List Char),
      (∀ c ∈ s, isDigitOrComma c = true) → s.length ≤ n →
      headNotDC post = true → takeRun n (s ++ post) = (s, post) := by
  intro s
  induction s with
  | nil =>
    intro n post _ _ hpost
    match n with
    | 0 => rfl
    | m + 1 =>
      match post with
      | [] => rfl
      | c :: ps =>
        simp only [headNotDC, Bool.not_eq_eq_eq_not, Bool.not_true] at hpost
        simp only [List.nil_append, takeRun]
        rw [if_neg (by simp [hpost])]
  | cons a s2 ih =>
    intro n post hs hn hpost
    match n with
    | 0 => simp at hn
    | m + 1 =>
      have ha : isDigitOrComma a = true := hs a (List.mem_cons_self a s2)
      have hih := ih m post (fun c hc => hs c (List.mem_cons_of_mem a hc))
        (by simpa using hn) hpost
      simp only [List.cons_append, takeRun, List.append_eq]
      rw [if_pos ha, hih]

theorem removeCommas_all_digits {s : List Char}
    (h : ∀ c ∈ s, isDigitOrComma c = true) :
    (removeCommas s).all Char.isDigit = true := by
  rw [List.all_eq_true]
  intro c hc
  rcases List.mem_filter.mp hc with ⟨hcs, hcne⟩
  have := h c hcs
  simp only [isDigitOrComma, Bool.or_eq_true, beq_iff_eq] at this
  rcases this with hd | hcomma
  · exact hd
  · simp [hcomma] at hcne

theorem extractWonGo_skip_front :
    ∀ (pre : List Char) (f : Nat) (rest : List Char),
      (∀ c ∈ pre, isDigitOrComma c = false) → pre.length + rest.length ≤ f →
      extractWonGo f (pre ++ rest) = extractWonGo (f - pre.length) rest := by
  intro pre
  induction pre with
  | nil => intro f rest _ _; simp
  | cons p ps ih =>
    intro f rest hpre hf
    match f with
    | 0 => simp at hf
    | g + 1 =>
      have hp : isDigitOrComma p = false := hpre p (List.mem_cons_self p ps)
      have hih := ih g rest (fun c hc => hpre c (List.mem_cons_of_mem p hc))
        (by simp at hf ⊢; omega)
      simp only [List.cons_append, extractWonGo, List.append_eq]
      rw [if_neg (by simp [hp]), hih]
      have hnum : g + 1 - (p :: ps).length = g - ps.length := by
        simp only [List.length_cons]
        omega
      rw [hnum]

theorem extractWon_token_mem {pre s post : List Char}
    (hpre : ∀ c ∈ pre, isDigitOrComma c = false)
    (hs : ∀ c ∈ s, isDigitOrComma c = true)
    (h1 : 1 ≤ s.length) (h12 : s.length ≤ 12)
    (hpost : headNotDC post = true)
    (hd : removeCommas s ≠ [])
    (hval : inRange (natDigits (removeCommas s)) = true) :
    natDigits (removeCommas s) ∈ extractWon (pre ++ s ++ post) := by
  rw [extractWon, List.append_assoc,
      extractWonGo_skip_front pre _ (s ++ post) hpre (by simp [List.length_append])]
  have hfuel : (pre ++ (s ++ post)).length - pre.length = (s ++ post).length := by
    simp [List.length_append]
  rw [hfuel]
  match s, h1 with
  | a :: s2, _ =>
    have ha : isDigitOrComma a = true := hs a (List.mem_cons_self a s2)
    have hlen2 : ((a :: s2) ++ post).length = (s2 ++ post).length + 1 := by
      simp
    rw [hlen2]
    simp only [List.cons_append, extractWonGo]
    rw [if_pos ha]
    simp only [List.append_eq]
    have htr : takeRun 12 (a :: (s2 ++ post)) = (a :: s2, post) := by
      have := takeRun_all (a :: s2) 12 post hs h12 hpost
      simpa using this
    rw [htr]
    have hguard : (!(removeCommas (a :: s2)).isEmpty &&
        (removeCommas (a :: s2)).all Char.isDigit &&
        inRange (natDigits (removeCommas (a :: s2)))) = true := by
      rw [Bool.and_eq_true, Bool.and_eq_true]
      refine ⟨⟨?_, removeCommas_all_digits hs⟩, hval⟩
      cases hrm : removeCommas (a :: s2) with
      | nil => exact absurd hrm hd
      | cons x xs => rfl
    rw [if_pos hguard]
    exact List.mem_append_left _ (List.mem_singleton.mpr rfl)

theorem strategy1_skip_front {pre rest : List (List Char)}
    (h : ∀ l ∈ pre, s1kwTest l = false) :
    strategy1 (pre ++ rest) = strategy1 rest := by
  induction pre with
  | nil => rfl
  | cons p ps ih =>
    simp only [List.cons_append, strategy1]
    rw [if_neg (by simp [h p (List.mem_cons_self p ps)])]
    exact ih (fun l hl => h l (List.mem_cons_of_mem p hl))

theorem s1LineMiss_cases {l : List Char} (h : s1LineMiss l = true) :
    lineWonEval l = none ∨
      ∃ w, lineWonEval l = some (.ok w) ∧ inRange w = false := by
  unfold s1LineMiss at h
  match hev : lineWonEval l with
  | none => exact Or.inl rfl
  | some (.error e) => rw [hev] at h; cases h
  | some (.ok w) =>
    rw [hev] at h
    dsimp only at h
    exact Or.inr ⟨w, rfl, by simpa using h⟩

theorem scanFollowing_skip_misses {mid rest : List (List Char)}
    (h : ∀ l ∈ mid, s1LineMiss l = true) :
    scanFollowing (mid ++ rest) = scanFollowing rest := by
  induction mid with
  | nil => rfl
  | cons m ms ih =>
    have hm := s1LineMiss_cases (h m (List.mem_cons_self m ms))
    have ihm := ih (fun l hl => h l (List.mem_cons_of_mem m hl))
    simp only [List.cons_append, scanFollowing]
    rcases hm with hev | ⟨w, hev, hw⟩
    · rw [hev]
      exact ihm
    · rw [hev]
      dsimp only
      rw [if_neg (by simp [hw])]
      exact ihm

theorem scanFollowing_hit {hit : List Char} {rest : List (List Char)} {v : Nat}
    (hev : lineWonEval hit = some (.ok v)) (hr : inRange v = true) :
    scanFollowing (hit :: rest) = .ok (some v) := by
  simp only [scanFollowing]
  rw [hev]
  dsimp only
  rw [if_pos hr]

theorem strategy1_same_line_hit {l : List Char} {ls : List (List Char)} {v : Nat}
    (hkw : s1kwTest l = true) (hev : lineWonEval l = some (.ok v))
    (hr : inRange v = true) :
    strategy1 (l :: ls) = .ok (some v) := by
  simp only [strategy1]
  rw [if_pos hkw, hev]
  dsimp only
  rw [if_pos hr]

theorem strategy1_resolves {pre mid rest : List (List Char)}
    {kwLine hit : List Char} {v : Nat}
    (hpre : ∀ l ∈ pre, s1kwTest l = false)
    (hkw : s1kwTest kwLine = true)
    (hsame : s1LineMiss kwLine = true)
    (hmid : ∀ l ∈ mid, s1LineMiss l = true)
    (hev : lineWonEval hit = some (.ok v)) (hr : inRange v = true) :
    strategy1 (pre ++ kwLine :: (mid ++ hit :: rest)) = .ok (some v) := by
  rw [strategy1_skip_front hpre]
  have hscan : scanFollowing (mid ++ hit :: rest) = .ok (some v) := by
    rw [scanFollowing_skip_misses hmid, scanFollowing_hit hev hr]
  simp only [strategy1]
  rw [if_pos hkw]
  rcases s1LineMiss_cases hsame with hevk | ⟨w, hevk, hw⟩
  · rw [hevk]
    dsimp only
    rw [hscan]
  · rw [hevk]
    dsimp only
    rw [if_neg (by simp [hw]), hscan]

theorem extract_of_strategy1 {t : List Char} {v : Nat} (hne : t ≠ [])
    (h : strategy1 (splitOnNewline t) = .ok (some v)) :
    extract_amount_from_image (some t) = .ok (some (fmtComma v), some t) := by
  simp only [extract_amount_from_image]
  have hemp : t.isEmpty = false := by
    cases t with
    | nil => exact absurd rfl hne
    | cons a b => rfl
  rw [if_neg (by simp [hemp])]
  rw [h]

theorem isEmpty_false_of_ne_nil {t : List Char} (h : t ≠ []) : t.isEmpty = false := by
  cases t with
  | nil => exact absurd rfl h
  | cons a b => rfl

/-! ### Claim theorems -/

/-- C1: whenever the extractor returns an amount, that amount is the
thousands-grouped decimal rendering (digits and commas only — no currency
symbol, no decimal point) of an integer value between 100 and 99,999,999;
no strategy ever returns a value outside this range. -/
theorem c1_amount_in_range_and_grouped (ft : Option (List Char)) (a : List Char)
    (r : Option (List Char))
    (h : extract_amount_from_image ft = .ok (some a, r)) :
    ∃ v, 100 ≤ v ∧ v ≤ 99999999 ∧ a = fmtComma v ∧
      ∀ c ∈ a, c.isDigit = true ∨ c = ',' := by
  have hach : ∀ (v : Nat), a = fmtComma v → ∀ c ∈ a, c.isDigit = true ∨ c = ',' := by
    intro v hv c hc
    rw [hv] at hc
    exact fmtComma_chars hc
  match ft with
  | none => simp [extract_amount_from_image] at h
  | some t =>
    simp only [extract_amount_from_image] at h
    by_cases hemp : t.isEmpty = true
    · rw [if_pos hemp] at h
      simp at h
    · rw [if_neg hemp] at h
      match hs : strategy1 (splitOnNewline t) with
      | .error e => rw [hs] at h; cases h
      | .ok (some v) =>
        rw [hs] at h
        dsimp only at h
        simp only [Except.ok.injEq, Prod.mk.injEq, Option.some.injEq] at h
        have hv := inRange_iff.mp (strategy1_inRange _ hs)
        exact ⟨v, hv.1, hv.2, h.1.symm, hach v h.1.symm⟩
      | .ok none =>
        rw [hs] at h
        dsimp only at h
        match hcc : collectCandidates (splitOnNewline t) with
        | [] =>
          rw [hcc] at h
          dsimp only at h
          match hw : extractWon t with
          | [] => rw [hw] at h; simp at h
          | v :: vs =>
            rw [hw] at h
            dsimp only at h
            simp only [Except.ok.injEq, Prod.mk.injEq, Option.some.injEq] at h
            have hmem : listMax (v :: vs) ∈ extractWon t := by
              rw [hw]
              exact listMax_mem (v :: vs) (by simp)
            have hin := inRange_iff.mp (extractWon_inRange hmem)
            exact ⟨listMax (v :: vs), hin.1, hin.2, h.1.symm, hach _ h.1.symm⟩
        | c :: cs =>
          rw [hcc] at h
          dsimp only at h
          simp only [Except.ok.injEq, Prod.mk.injEq, Option.some.injEq] at h
          have hsne : sortPairs (c :: cs) ≠ [] := by
            have hcmem : c ∈ sortPairs (c :: cs) :=
              (mem_sortPairs _).mpr (List.mem_cons_self c cs)
            intro he
            rw [he] at hcmem
            cases hcmem
          obtain ⟨h0, rest, hsr⟩ := List.exists_cons_of_ne_nil hsne
          have hhd : (sortPairs (c :: cs)).headD (0, 0) = h0 := by rw [hsr]; rfl
          have h0mem : h0 ∈ sortPairs (c :: cs) := by
            rw [hsr]
            exact List.mem_cons_self h0 rest
          have h0grp : h0.2 ∈ ((sortPairs (c :: cs)).filter
              (fun x => x.1 == ((sortPairs (c :: cs)).headD (0, 0)).1)).map
              (fun x => x.2) := by
            refine List.mem_map.mpr ⟨h0, List.mem_filter.mpr ⟨h0mem, ?_⟩, rfl⟩
            rw [hhd]
            simp
          have hgne : (((sortPairs (c :: cs)).filter
              (fun x => x.1 == ((sortPairs (c :: cs)).headD (0, 0)).1)).map
              (fun x => x.2)) ≠ [] := by
            intro he
            rw [he] at h0grp
            cases h0grp
          have hlm := listMax_mem _ hgne
          obtain ⟨x, hxf, hxe⟩ := List.mem_map.mp hlm
          have hxs : x ∈ sortPairs (c :: cs) := (List.mem_filter.mp hxf).1
          have hxc : x ∈ collectCandidates (splitOnNewline t) := by
            rw [hcc]
            exact (mem_sortPairs _).mp hxs
          have hxr : inRange x.2 = true := by
            have hx2 : (x.1, x.2) ∈ collectCandidates (splitOnNewline t) := by
              rw [Prod.mk.eta]
              exact hxc
            exact collectCandidates_inRange _ hx2
          have hin := inRange_iff.mp hxr
          rw [hxe] at hin
          exact ⟨_, hin.1, hin.2, h.1.symm, hach _ h.1.symm⟩

/-- C1 witness: on the receipt line `합계금액 27,190원` the extractor returns
the amount `27,190`, which the theorem certifies as in-range and
thousands-grouped. -/
theorem c1_witness :
    ∃ v, 100 ≤ v ∧ v ≤ 99999999 ∧ "27,190".data = fmtComma v ∧
      ∀ c ∈ "27,190".data, c.isDigit = true ∨ c = ',' :=
  c1_amount_in_range_and_grouped (some "합계금액 27,190원".data) "27,190".data
    (some "합계금액 27,190원".data) (by decide)

/-- C2: when Strategy 1 yields nothing and Strategy 2 collected candidates,
the returned amount is the maximum value among the candidates of the lowest
(best) priority present; worse-priority candidates never determine it. -/
theorem c2_best_priority_max (t : List Char) (bp V : Nat)
    (hne : t ≠ [])
    (hs1 : strategy1 (splitOnNewline t) = .ok none)
    (hmem : (bp, V) ∈ collectCandidates (splitOnNewline t))
    (hmin : ∀ x ∈ collectCandidates (splitOnNewline t), bp ≤ x.1)
    (hmax : ∀ x ∈ collectCandidates (splitOnNewline t), x.1 = bp → x.2 ≤ V) :
    extract_amount_from_image (some t) = .ok (some (fmtComma V), some t) := by
  simp only [extract_amount_from_image]
  rw [if_neg (by simp [isEmpty_false_of_ne_nil hne]), hs1]
  dsimp only
  match hcc : collectCandidates (splitOnNewline t) with
  | [] => rw [hcc] at hmem; cases hmem
  | c :: cs =>
    rw [hcc] at hmem hmin hmax
    dsimp only
    have hVs : (bp, V) ∈ sortPairs (c :: cs) := (mem_sortPairs _).mpr hmem
    have hsne : sortPairs (c :: cs) ≠ [] := by
      intro he
      rw [he] at hVs
      cases hVs
    obtain ⟨h0, rest, hsr⟩ := List.exists_cons_of_ne_nil hsne
    have hpw := pairwise_sortPairs (c :: cs)
    have hhd : (sortPairs (c :: cs)).headD (0, 0) = h0 := by rw [hsr]; rfl
    have h0c : h0 ∈ c :: cs := by
      refine (mem_sortPairs _).mp ?_
      rw [hsr]
      exact List.mem_cons_self h0 rest
    have hbp1 : bp ≤ h0.1 := hmin h0 h0c
    have hble : leKey h0 (bp, V) = true ∨ h0 = (bp, V) := by
      have hVs2 := hVs
      rw [hsr] at hVs2
      rcases List.mem_cons.mp hVs2 with he | hrest
      · exact Or.inr he.symm
      · have hpw2 := hpw
        rw [hsr] at hpw2
        exact Or.inl ((List.pairwise_cons.mp hpw2).1 _ hrest)
    have hbp2 : h0.1 ≤ bp := by
      rcases hble with hle | he
      · rcases leKey_iff.mp hle with hlt | ⟨heq, _⟩
        · omega
        · omega
      · rw [he]
    have hbp : h0.1 = bp := Nat.le_antisymm hbp2 hbp1
    rw [hhd, hbp]
    have hVg : V ∈ ((sortPairs (c :: cs)).filter (fun x => x.1 == bp)).map
        (fun x => x.2) :=
      List.mem_map.mpr ⟨(bp, V), List.mem_filter.mpr ⟨hVs, by simp⟩, rfl⟩
    have hub : ∀ y ∈ ((sortPairs (c :: cs)).filter (fun x => x.1 == bp)).map
        (fun x => x.2), y ≤ V := by
      intro y hy
      obtain ⟨x, hxf, hxe⟩ := List.mem_map.mp hy
      obtain ⟨hxs, hxp⟩ := List.mem_filter.mp hxf
      have hx1 : x.1 = bp := by simpa using hxp
      have hxc : x ∈ c :: cs := (mem_sortPairs _).mp hxs
      rw [← hxe]
      exact hmax x hxc hx1
    rw [listMax_eq hVg hub]

/-- C2 witness: on `합계 15000 23000` both amounts are candidates at the
priority of `합계`, and the maximum (23,000) is returned. -/
theorem c2_witness :
    extract_amount_from_image (some "합계 15000 23000".data) =
      .ok (some (fmtComma 23000), some "합계 15000 23000".data) :=
  c2_best_priority_max "합계 15000 23000".data 8 23000 (by decide) (by decide)
    (by decide) (by decide) (by decide)

/-- C3 counterexample: with the lines `합계금액` / `9원 5,000원` / `7,000원`,
the first in-range won-suffixed number encountered scanning the subsequent
lines in document order is 5,000 (on the second line, after the out-of-range
`9원`), yet the extractor returns `7,000`: on each line only the leftmost
won-suffixed match is considered, and a line whose leftmost match is out of
range is passed over entirely. -/
theorem c3_counterexample :
    extract_amount_from_image (some "합계금액\n9원 5,000원\n7,000원".data) =
      .ok (some "7,000".data, some "합계금액\n9원 5,000원\n7,000원".data) ∧
    "7,000".data ≠ "5,000".data := by decide

/-- C3 (amended): if the first `합계금액` line's own leftmost won-suffixed
token misses (no match, or value out of range), the extractor returns the
value of the leftmost won-suffixed token of the first subsequent line on
which that token parses in range — lines whose leftmost won-suffixed token is
out of range are passed over whole, even if a later token on them is in
range. -/
theorem c3_amended_first_resolving_line (t : List Char)
    (pre mid rest : List (List Char)) (kwLine hit : List Char) (v : Nat)
    (hne : t ≠ [])
    (hsplit : splitOnNewline t = pre ++ kwLine :: (mid ++ hit :: rest))
    (hpre : ∀ l ∈ pre, s1kwTest l = false)
    (hkw : s1kwTest kwLine = true)
    (hsame : s1LineMiss kwLine = true)
    (hmid : ∀ l ∈ mid, s1LineMiss l = true)
    (hev : lineWonEval hit = some (.ok v)) (hr : inRange v = true) :
    extract_amount_from_image (some t) = .ok (some (fmtComma v), some t) := by
  apply extract_of_strategy1 hne
  rw [hsplit]
  exact strategy1_resolves hpre hkw hsame hmid hev hr

/-- C3 witness: the amended claim applied to the counterexample text — the
resolving line is the third one, value 7,000. -/
theorem c3_witness :
    extract_amount_from_image (some "합계금액\n9원 5,000원\n7,000원".data) =
      .ok (some (fmtComma 7000), some "합계금액\n9원 5,000원\n7,000원".data) :=
  c3_amended_first_resolving_line "합계금액\n9원 5,000원\n7,000원".data
    [] ["9원 5,000원".data] [] "합계금액".data "7,000원".data 7000
    (by decide) (by decide) (by decide) (by decide) (by decide) (by decide)
    (by decide) (by decide)

/-- C4 counterexample: the line `합계 번 호 5000` contains (in collapsed
form) both the total keyword `합계` and the exclusion keyword `번호`, yet it
does contribute the candidates (10, 5000) and (11, 5000) to the Strategy 2
candidate list — harvested through the next-line path of the preceding `총액`
line, because the raw-line exclusion check misses the spaced-out `번 호`. -/
theorem c4_counterexample :
    lineHasExclude (strippedRS "합계 번 호 5000".data) = true ∧
    hasSub (strippedRS "합계 번 호 5000".data) "합계".data = true ∧
    extractWon "총액".data = [] ∧
    collectCandidates (splitOnNewline "총액\n합계 번 호 5000".data) =
      [(10, 5000), (11, 5000)] ∧
    (5000 : Nat) ∈ extractWon "합계 번 호 5000".data := by decide

/-- C4 (amended): a line whose whitespace-collapsed form contains an
exclusion keyword is skipped before its own total-keyword matching, so it
never contributes a candidate via its own keyword match; it may however still
contribute candidates as the next line of a preceding keyword line, whenever
its raw form lacks a contiguous exclusion keyword. -/
theorem c4_amended_excluded_line_skip :
    (∀ (l : List Char) (next : Option (List Char)),
        lineHasExclude (strippedRS l) = true → lineCands l next = []) ∧
    extract_amount_from_image (some "총액\n합계 번 호 5000".data) =
      .ok (some "5,000".data, some "총액\n합계 번 호 5000".data) := by
  constructor
  · intro l next h
    simp only [lineCands]
    rw [if_pos h]
  · decide

/-- C4 witness: a line containing `승인번호` is skipped whole by Strategy 2's
keyword matching. -/
theorem c4_witness :
    lineCands "승인번호 12345".data (some "300".data) = [] :=
  c4_amended_excluded_line_skip.1 "승인번호 12345".data (some "300".data)
    (by decide)

/-- C5: when Strategy 1 returns nothing and Strategy 2 collected no
candidate, the extractor returns the maximum in-range token of the whole
text if one exists, and no amount otherwise. -/
theorem c5_global_fallback_max (t : List Char)
    (hne : t ≠ [])
    (hs1 : strategy1 (splitOnNewline t) = .ok none)
    (hc : collectCandidates (splitOnNewline t) = []) :
    (extractWon t ≠ [] →
        extract_amount_from_image (some t) =
          .ok (some (fmtComma (listMax (extractWon t))), some t)) ∧
    (extractWon t = [] →
        extract_amount_from_image (some t) = .ok (none, some t)) ∧
    (∀ w ∈ extractWon t, w ≤ listMax (extractWon t)) := by
  refine ⟨?_, ?_, fun w hw => le_listMax hw⟩
  · intro hnem
    simp only [extract_amount_from_image]
    rw [if_neg (by simp [isEmpty_false_of_ne_nil hne]), hs1]
    dsimp only
    rw [hc]
    dsimp only
    match hw : extractWon t with
    | [] => exact absurd hw hnem
    | v :: vs => rfl
  · intro hemp2
    simp only [extract_amount_from_image]
    rw [if_neg (by simp [isEmpty_false_of_ne_nil hne]), hs1]
    dsimp only
    rw [hc]
    dsimp only
    rw [hemp2]

/-- C5 witness: the spec scenario `1500 23000 450000000` — the 9-digit token
is out of range, and the maximum in-range token 23,000 is returned. -/
theorem c5_witness :
    extract_amount_from_image (some "1500 23000 450000000".data) =
      .ok (some (fmtComma (listMax (extractWon "1500 23000 450000000".data))),
        some "1500 23000 450000000".data) :=
  (c5_global_fallback_max "1500 23000 450000000".data (by decide) (by decide)
    (by decide)).1 (by decide)

/-- C6 counterexample: on the text `전화번호: 010-1234-5678` the extractor
does NOT return `(None, raw_text)` — the hyphen-separated digit groups 1234
and 5678 are in-range tokens, so the global fallback fires. -/
theorem c6_counterexample :
    extract_amount_from_image (some "전화번호: 010-1234-5678".data) ≠
      .ok (none, some "전화번호: 010-1234-5678".data) := by decide

/-- C6 (amended): on the text `전화번호: 010-1234-5678` the extractor
returns the amount `5,678` together with the raw text: the line is excluded
from Strategy 2 by `번호`, but the fallback scan accepts the digit groups
1234 and 5678 (each in [100, 99_999_999]) and returns their maximum. -/
theorem c6_amended_phone_number_result :
    extract_amount_from_image (some "전화번호: 010-1234-5678".data) =
      .ok (some "5,678".data, some "전화번호: 010-1234-5678".data) := by decide

/-- C7 counterexample: with lines `합계` / `번 호 5000` / `total 300`, the
next line of the `합계` hit collapses to `번호5000` — containing an exclusion
keyword — yet its token 5000 is recorded and returned, because the next-line
exclusion check runs on the RAW line `번 호 5000`, where `번호` is not
contiguous.  Under the claim the result would have been 300. -/
theorem c7_counterexample :
    extract_amount_from_image (some "합계\n번 호 5000\ntotal 300".data) =
      .ok (some "5,000".data, some "합계\n번 호 5000\ntotal 300".data) ∧
    lineHasExclude (strippedRS "번 호 5000".data) = true ∧
    lineHasExclude "번 호 5000".data = false ∧
    "5,000".data ≠ "300".data := by decide

/-- C7 (amended): the exclusion check on the keyword-bearing line itself
operates on its whitespace-collapsed copy (a spaced-out exclusion keyword
still disqualifies that line), but the next-line exclusion check before the
next-line token scan operates on the raw next line, so a spaced-out exclusion
keyword on the next line does not disqualify it. -/
theorem c7_amended_exclusion_copies :
    (∀ (l : List Char) (next : Option (List Char)),
        lineHasExclude (strippedRS l) = true → lineCands l next = []) ∧
    extract_amount_from_image (some "합계\n번 호 5000\ntotal 300".data) =
      .ok (some "5,000".data, some "합계\n번 호 5000\ntotal 300".data) := by
  constructor
  · intro l next h
    simp only [lineCands]
    rw [if_pos h]
  · decide

/-- C7 witness: a keyword line with the spaced-out exclusion keyword `번 호`
is disqualified by its collapsed copy. -/
theorem c7_witness :
    lineCands "번 호 77".data none = [] :=
  c7_amended_exclusion_copies.1 "번 호 77".data none (by decide)

/-- C8: Strategy 1 never consults the exclusion keywords — on any text, a
`합계금액` line triggers the won-suffix search and an in-range amount found
that way is returned, even when the keyword line (and, in the
subsequent-lines case, the line supplying the amount as well) contains an
exclusion keyword.  Part one: the same-line hit.  Part two: the
subsequent-lines search under an exclusion-bearing keyword line, resolving on
an exclusion-bearing later line. -/
theorem c8_strategy1_ignores_exclusions :
    (∀ (t : List Char) (pre rest : List (List Char)) (kwLine : List Char)
        (v : Nat),
        t ≠ [] →
        splitOnNewline t = pre ++ kwLine :: rest →
        (∀ l ∈ pre, s1kwTest l = false) →
        s1kwTest kwLine = true →
        lineHasExclude (strippedRS kwLine) = true →
        lineWonEval kwLine = some (.ok v) →
        inRange v = true →
        extract_amount_from_image (some t) = .ok (some (fmtComma v), some t)) ∧
    (∀ (t : List Char) (pre mid rest : List (List Char))
        (kwLine hit : List Char) (v : Nat),
        t ≠ [] →
        splitOnNewline t = pre ++ kwLine :: (mid ++ hit :: rest) →
        (∀ l ∈ pre, s1kwTest l = false) →
        s1kwTest kwLine = true →
        lineHasExclude (strippedRS kwLine) = true →
        s1LineMiss kwLine = true →
        (∀ l ∈ mid, s1LineMiss l = true) →
        lineHasExclude (strippedRS hit) = true →
        lineWonEval hit = some (.ok v) →
        inRange v = true →
        extract_amount_from_image (some t) = .ok (some (fmtComma v), some t)) := by
  constructor
  · intro t pre rest kwLine v hne hsplit hpre hkw _hexcl hev hr
    apply extract_of_strategy1 hne
    rw [hsplit, strategy1_skip_front hpre]
    exact strategy1_same_line_hit hkw hev hr
  · intro t pre mid rest kwLine hit v hne hsplit hpre hkw _hexclKw hsame hmid
      _hexclHit hev hr
    apply extract_of_strategy1 hne
    rw [hsplit]
    exact strategy1_resolves hpre hkw hsame hmid hev hr

/-- C8 witness: the line `합계금액 승인번호 27,190원` contains the exclusion
keyword `번호`, yet Strategy 1 returns `27,190` from that same line; and on
`합계금액 승인번호` followed by `거래일시 15,500원` — the keyword line holds
`번호` and the value line holds `일시`, both exclusion keywords — Strategy
1's subsequent-lines search still returns `15,500`. -/
theorem c8_witness :
    extract_amount_from_image (some "합계금액 승인번호 27,190원".data) =
      .ok (some (fmtComma 27190), some "합계금액 승인번호 27,190원".data) ∧
    extract_amount_from_image (some "합계금액 승인번호\n거래일시 15,500원".data) =
      .ok (some (fmtComma 15500),
        some "합계금액 승인번호\n거래일시 15,500원".data) :=
  ⟨c8_strategy1_ignores_exclusions.1 "합계금액 승인번호 27,190원".data [] []
      "합계금액 승인번호 27,190원".data 27190 (by decide) (by decide)
      (by decide) (by decide) (by decide) (by decide) (by decide),
    c8_strategy1_ignores_exclusions.2 "합계금액 승인번호\n거래일시 15,500원".data
      [] [] [] "합계금액 승인번호".data "거래일시 15,500원".data 15500
      (by decide) (by decide) (by decide) (by decide) (by decide) (by decide)
      (by decide) (by decide) (by decide) (by decide)⟩

/-- C9: the token scanner validates no thousands-separator placement — any
isolated run of one to twelve digit/comma characters whose comma-stripped
form is a non-empty digit string with value in [100, 99_999_999] yields that
value as a token, wherever it sits in the scanned text. -/
theorem c9_no_separator_validation (pre s post : List Char)
    (hpre : ∀ c ∈ pre, isDigitOrComma c = false)
    (hs : ∀ c ∈ s, isDigitOrComma c = true)
    (h1 : 1 ≤ s.length) (h12 : s.length ≤ 12)
    (hpost : headNotDC post = true)
    (hd : removeCommas s ≠ [])
    (hval : inRange (natDigits (removeCommas s)) = true) :
    natDigits (removeCommas s) ∈ extractWon (pre ++ s ++ post) :=
  extractWon_token_mem hpre hs h1 h12 hpost hd hval

/-- C9 witness: the malformed grouping `1,00,000` is accepted as 100000. -/
theorem c9_witness :
    natDigits (removeCommas "1,00,000".data) ∈
      extractWon ("abc ".data ++ "1,00,000".data ++ " end".data) :=
  c9_no_separator_validation "abc ".data "1,00,000".data " end".data
    (by decide) (by decide) (by decide) (by decide) (by decide) (by decide)
    (by decide)

/-- C10 (code bug): on the text `합계금액 ,원` Strategy 1's inline
`int(m.group(1).replace(",", ""))` is handed the all-comma group `,` and
raises `ValueError` — contradicting the claim (and the guarded silent-discard
behaviour of `extract_won_amount`) that malformed tokens never raise. -/
theorem c10_strategy1_parse_crash :
    extract_amount_from_image (some "합계금액 ,원".data) = .error () := by decide

end ChurchBudget
